import Mathlib

/-!
# Verification of the dr-bot room-availability core (src/main.py)

Shallow embedding of the three core components of the bot:

* the Time Normalizer `process_time` (Python `datetime.strptime(time, "%I:%M%p")`
  followed by `replace(year, month, day)` and `sgt.localize`);
* the Booking Table Parser, the row-processing loop of `scrape_room`
  (sentinel skipping, `" - "` split, per-half normalization, append in order);
* the Availability Inference Engine `get_availability` (linear scan over the
  day's interval list with early exit).

Instants handled by the engine are modelled as integers (all Python `datetime`
values it compares are aware datetimes in the single fixed zone, so they form a
total order); instants produced by the normalizer are modelled as a record of
the calendar/clock fields plus the fixed zone name.
-/

namespace DrBot

/-! ## Availability Inference Engine (src/main.py, `get_availability`)

The Python function reads the wall clock once (`now = datetime.now(sgt)`) and
then runs a pure loop over `data`; the embedding passes that single clock
reading explicitly as the `now` argument.  Schedule entries are
`((start, end), reason)` exactly as built by `scrape_room`. -/

/-- One entry of a day's schedule: `((start, end), reason)`. -/
abbrev Entry := (Int × Int) × String

/-- The scan loop of `get_availability`: state is `(booked, until)`;
each list element runs the four-branch body of the Python `for` loop
(`continue` = recurse, `break`/fall-through = return current state). -/
def get_availability_loop (now : Int) : List Entry → Bool → Option Int → Bool × Option Int
  | [], booked, til => (booked, til)
  | ((s, e), _) :: rest, booked, til =>
    if e < now then
      -- "Bookings in the past are irrelevant."
      get_availability_loop now rest booked til
    else if s ≤ now ∧ now ≤ e then
      -- "If there is a booking now, I can't use it."
      get_availability_loop now rest true (some e)
    else if !booked then
      -- "If it was free, the first future booking makes it busy" (break)
      (booked, some s)
    else if some s = til then
      -- "If the booking is continuous, extend the busy time."
      get_availability_loop now rest booked (some e)
    else
      (booked, til)

/-- Embedding of `get_availability(data)`, with the single `datetime.now(sgt)`
reading made an explicit parameter. -/
def get_availability (data : List Entry) (now : Int) : Bool × Option Int :=
  get_availability_loop now data false none

/-! ### Well-formedness of a `DaySchedule` (spec §3): entries sorted by start
and non-overlapping (adjacency allowed), each interval valid. -/

/-- Valid interval: start does not come after end. -/
def entryValid (x : Entry) : Prop := x.1.1 ≤ x.1.2

/-- Sorted and non-overlapping: every earlier entry ends no later than every
later entry starts (touching boundaries allowed), and every entry is valid. -/
def WF (l : List Entry) : Prop :=
  (∀ x ∈ l, entryValid x) ∧ List.Pairwise (fun a b => a.1.2 ≤ b.1.1) l

/-- An unbroken chain of bookings hanging off accumulated end `u`: each entry
starts exactly where the previous one ended. -/
def chainFrom : Int → List Entry → Prop
  | _, [] => True
  | u, ((s, e), _) :: t => s = u ∧ s ≤ e ∧ chainFrom e t

/-- End instant of an unbroken chain started at accumulated end `u`. -/
def chainEnd : Int → List Entry → Int
  | u, [] => u
  | _, ((_, e), _) :: t => chainEnd e t

/-! ## Time Normalizer (src/main.py, `process_time`)

`process_time(date, time)` is `datetime.strptime(time, "%I:%M%p")` followed by
`.replace(year=date.year, month=date.month, day=date.day)` and
`sgt.localize(...)`.  The `strptime` format is modelled character by character:
`%I` matches `1[0-2]|0[1-9]|[1-9]` (hour 1–12, leading zero optional for 1–9,
ASCII literal classes), the literal `:`, `%M` matches `[0-5]\d|\d` (minute
0–59, one or two digits; the `[0-5]` class is ASCII but each `\d` matches any
Unicode decimal digit — category `Nd` — which `int(...)` converts by decimal
value), and `%p` matches `AM`/`PM` case-insensitively; the whole string must
be consumed ("unconverted data remains" is an error).  Failure is `none`
(Python raises `ValueError`). -/

/-- A calendar date (the `date` argument of `process_time`). -/
structure Date where
  year : Nat
  month : Nat
  day : Nat
deriving DecidableEq, Repr

/-- A zone-aware instant as produced by `sgt.localize(...)`: calendar and clock
fields plus the fixed zone name. -/
structure Instant where
  year : Nat
  month : Nat
  day : Nat
  hour : Nat
  minute : Nat
  tz : String
deriving DecidableEq, Repr

/-- The fixed facility timezone, `pytz.timezone("Asia/Singapore")`. -/
def sgt : String := "Asia/Singapore"

/-- Chronological key of an instant (all instants compared by the program carry
the same zone, which has no DST transitions, so field-lexicographic order is
chronological order). -/
def Instant.key (i : Instant) : Nat :=
  (((i.year * 13 + i.month) * 32 + i.day) * 24 + i.hour) * 60 + i.minute

/-- Strict chronological order on instants. -/
def Instant.lt (a b : Instant) : Prop := a.key < b.key

instance (a b : Instant) : Decidable (Instant.lt a b) :=
  inferInstanceAs (Decidable (_ < _))

/-- Value of an ASCII digit character (the digits matched by `\d` in the
`strptime` patterns and converted by `int(...)`). -/
def digitVal? (c : Char) : Option Nat :=
  if c = '0' then some 0
  else if c = '1' then some 1
  else if c = '2' then some 2
  else if c = '3' then some 3
  else if c = '4' then some 4
  else if c = '5' then some 5
  else if c = '6' then some 6
  else if c = '7' then some 7
  else if c = '8' then some 8
  else if c = '9' then some 9
  else none

/-- Pattern `%I`: `1[0-2]|0[1-9]|[1-9]` — hour 1–12, leading zero optional for 1–9.
Returns the hour value and the unconsumed rest. -/
def parseHour : List Char → Option (Nat × List Char)
  | [] => none
  | c :: rest =>
    if c = '0' then
      match rest with
      | [] => none
      | c2 :: rest2 =>
        match digitVal? c2 with
        | some d => if 1 ≤ d then some (d, rest2) else none
        | none => none
    else if c = '1' then
      match rest with
      | [] => some (1, [])
      | c2 :: rest2 =>
        if c2 = '0' then some (10, rest2)
        else if c2 = '1' then some (11, rest2)
        else if c2 = '2' then some (12, rest2)
        else some (1, c2 :: rest2)
    else
      match digitVal? c with
      | some d => some (d, rest)
      | none => none

/-- Starting code points of the Unicode decimal-digit runs (category `Nd`)
other than ASCII `0-9`; each run is ten consecutive code points whose decimal
values are 0–9 in order (Unicode 14.0, as in the CPython build's
`unicodedata`).  CPython's `re` matches `\d` against exactly these characters
in a `str` pattern, and `int(...)` converts them by their decimal value. -/
def ndZeroStartsTail : List Nat :=
  [1632, 1776, 1984, 2406, 2534, 2662, 2790, 2918, 3046, 3174, 3302, 3430,
   3558, 3664, 3792, 3872, 4160, 4240, 6112, 6160, 6470, 6608, 6784, 6800,
   6992, 7088, 7232, 7248, 42528, 43216, 43264, 43472, 43504, 43600, 44016,
   65296, 66720, 68912, 69734, 69872, 69942, 70096, 70384, 70736, 70864,
   71248, 71360, 71472, 71904, 72016, 72784, 73040, 73120, 92768, 92864,
   93008, 120782, 120792, 120802, 120812, 120822, 123200, 123632, 125264,
   130032]

/-- Starting code points of every Unicode decimal-digit run, ASCII first. -/
def ndZeroStarts : List Nat := 48 :: ndZeroStartsTail

/-- Find the decimal value of code point `v` in the digit runs `l`. -/
def decDigitVal?Aux : List Nat → Nat → Option Nat
  | [], _ => none
  | s :: t, v => if s ≤ v ∧ v < s + 10 then some (v - s) else decDigitVal?Aux t v

/-- Decimal value of a character under `\d` + `int(...)`: any Unicode decimal
digit (category `Nd`), by its decimal value. -/
def decDigitVal? (c : Char) : Option Nat :=
  decDigitVal?Aux ndZeroStarts c.toNat

/-- Pattern `%M`: `[0-5]\d|\d` — minute 0–59, one or two digits.  The literal
class `[0-5]` is ASCII-only, but each `\d` matches any Unicode decimal digit
(so e.g. `"٣"` is an accepted minute, value 3). -/
def parseMin : List Char → Option (Nat × List Char)
  | [] => none
  | c :: rest =>
    if 48 ≤ c.toNat ∧ c.toNat ≤ 53 then
      match rest with
      | [] => some (c.toNat - 48, [])
      | c2 :: rest2 =>
        match decDigitVal? c2 with
        | some b => some (10 * (c.toNat - 48) + b, rest2)
        | none => some (c.toNat - 48, rest)
    else
      match decDigitVal? c with
      | some a => some (a, rest)
      | none => none

/-- Pattern `%p`: `AM` or `PM`, case-insensitively; `true` means PM. -/
def parseAmPm : List Char → Option (Bool × List Char)
  | c1 :: c2 :: rest =>
    if (c1 = 'A' ∨ c1 = 'a') ∧ (c2 = 'M' ∨ c2 = 'm') then some (false, rest)
    else if (c1 = 'P' ∨ c1 = 'p') ∧ (c2 = 'M' ∨ c2 = 'm') then some (true, rest)
    else none
  | _ => none

/-- Conversion of `strptime` 12-hour values to 24-hour values: PM adds 12 except for 12PM,
and 12AM is hour 0. -/
def to24 (h : Nat) (pm : Bool) : Nat :=
  if pm then (if h = 12 then 12 else h + 12) else (if h = 12 then 0 else h)

/-- Model of `datetime.strptime(s, "%I:%M%p")`, reduced to the `(hour24, minute)` pair
it contributes (its other fields are overwritten by `.replace`). -/
def parse12Hour (s : String) : Option (Nat × Nat) :=
  match parseHour s.data with
  | none => none
  | some (h, r1) =>
    match r1 with
    | ':' :: r2 =>
      match parseMin r2 with
      | none => none
      | some (m, r3) =>
        match parseAmPm r3 with
        | none => none
        | some (pm, r4) => if r4 = [] then some (to24 h pm, m) else none
    | _ => none

/-- Embedding of `process_time(date, time)`: parse the clock string, take year/month/day
from `date`, and attach the fixed zone. -/
def process_time (date : Date) (time : String) : Option Instant :=
  match parse12Hour time with
  | some (h, m) => some ⟨date.year, date.month, date.day, h, m, sgt⟩
  | none => none

/-! ## Booking Table Parser (src/main.py, `scrape_room`, lines 63–72)

The loop over the scraped rows: a row whose first cell is the sentinel
`"No bookings made."` is skipped; otherwise the row must be exactly
`[slot, reason]`, `slot.split(" - ")` must give exactly two halves, and each
half must normalize; any failure raises (modelled as `Except.error`), so the
whole parse fails and no partial schedule is produced. -/

/-- The ways the Python row loop can raise. -/
inductive ScrapeError
  | indexError      -- `row[0]` on an empty row
  | unpackError     -- `slot, reason = row` with `len(row) != 2`
  | malformedRange  -- `start, end = slot.split(" - ")` with `!= 2` parts
  | malformedTime   -- `strptime` failure in `process_time`
deriving DecidableEq, Repr

/-- If `pre` is a prefix of `l`, return the rest of `l` after it. -/
def dropPrefixChars : List Char → List Char → Option (List Char)
  | [], l => some l
  | _ :: _, [] => none
  | p :: ps, c :: cs => if c = p then dropPrefixChars ps cs else none

/-- Python `str.split(sep)` on character lists (non-overlapping occurrences,
scanned left to right, empty parts kept).  `fuel` bounds the recursion and is
always given as more than the length of the subject string. -/
def splitChars : Nat → List Char → List Char → List (List Char)
  | 0, _, _ => [[]]
  | _ + 1, _, [] => [[]]
  | fuel + 1, sep, c :: cs =>
    match dropPrefixChars sep (c :: cs) with
    | some rest => [] :: splitChars fuel sep rest
    | none =>
      match splitChars fuel sep cs with
      | [] => [[c]]
      | h :: t => (c :: h) :: t

/-- Python `s.split(sep)` for a non-empty separator. -/
def pySplit (s sep : String) : List String :=
  (splitChars (s.data.length + 1) sep.data s.data).map List.asString

/-- The row-processing loop of `scrape_room`, over the scraped text rows
(`content` in the Python source).  Exceptions abort the whole loop. -/
def scrape_room (date : Date) :
    List (List String) → Except ScrapeError (List ((Instant × Instant) × String))
  | [] => .ok []
  | [] :: _ => .error .indexError
  | (first :: others) :: rest =>
    if first = "No bookings made." then scrape_room date rest
    else
      match others with
      | [reason] =>
        match pySplit first " - " with
        | [s1, s2] =>
          match process_time date s1, process_time date s2 with
          | some t1, some t2 =>
            match scrape_room date rest with
            | .ok l => .ok (((t1, t2), reason) :: l)
            | .error err => .error err
          | none, _ => .error .malformedTime
          | some _, none => .error .malformedTime
        | _ => .error .malformedRange
      | _ => .error .unpackError

/-! ## The spec-side 12-hour time format

For the Time Normalizer's contract the spec's format ("a 12-hour clock string
with an AM/PM suffix and no leading zero requirement") is written down
independently of the parser: hour 1–12 (leading zero optional below 10),
a colon, minute 0–59 (one or two digits), and an `AM`/`PM` suffix (matched
case-insensitively, as `strptime`'s `%p` does). -/

/-- The accepted spellings of an hour value. -/
def hourReps (h : Nat) : List (List Char) :=
  if h ≤ 9 then [[Nat.digitChar h], ['0', Nat.digitChar h]]
  else [['1', Nat.digitChar (h % 10)]]

/-- The accepted spellings of a minute value. -/
def minReps (m : Nat) : List (List Char) :=
  if m ≤ 9 then [[Nat.digitChar m], ['0', Nat.digitChar m]]
  else [[Nat.digitChar (m / 10), Nat.digitChar (m % 10)]]

/-- The accepted spellings of the AM/PM suffix; `true` means PM. -/
def ampmReps (pm : Bool) : List (List Char) :=
  if pm then [['P', 'M'], ['P', 'm'], ['p', 'M'], ['p', 'm']]
  else [['A', 'M'], ['A', 'm'], ['a', 'M'], ['a', 'm']]

/-- String `s` is a well-formed 12-hour clock string denoting hour `h` (1–12),
minute `m` and half-day `pm`. -/
def SpecTimeFormat (s : String) (h m : Nat) (pm : Bool) : Prop :=
  1 ≤ h ∧ h ≤ 12 ∧ m ≤ 59 ∧
  ∃ hr mr sfx, hr ∈ hourReps h ∧ mr ∈ minReps m ∧ sfx ∈ ampmReps pm ∧
    s.data = hr ++ ':' :: (mr ++ sfx)

/-- The accepted character spellings of a minute value under the real `%M`
pattern: one Unicode decimal digit, or an ASCII `0`–`5` followed by a Unicode
decimal digit. -/
def minuteChars : List Char → Nat → Prop
  | [c], m => decDigitVal? c = some m
  | [c1, c2], m => (48 ≤ c1.toNat ∧ c1.toNat ≤ 53) ∧
      ∃ b, decDigitVal? c2 = some b ∧ m = 10 * (c1.toNat - 48) + b
  | _, _ => False

/-- String `s` matches the lenient pattern `%I:%M%p` actually accepts: like
`SpecTimeFormat` but with the minute spelled by any Unicode decimal digits the
`\d` slots of `%M` admit. -/
def SpecTimeFormatL (s : String) (h m : Nat) (pm : Bool) : Prop :=
  1 ≤ h ∧ h ≤ 12 ∧ m ≤ 59 ∧
  ∃ hr mc sfx, hr ∈ hourReps h ∧ minuteChars mc m ∧ sfx ∈ ampmReps pm ∧
    s.data = hr ++ ':' :: (mc ++ sfx)

/-- The head of a character list is not a Unicode decimal digit. -/
def headNotDigit : List Char → Prop
  | [] => True
  | c :: _ => decDigitVal? c = none

/-! ### Lemmas about the character-level parsers -/

theorem digitVal?_digitChar (d : Nat) (hd : d ≤ 9) :
    digitVal? (Nat.digitChar d) = some d := by
  interval_cases d <;> rfl

theorem digitVal?_inv (c : Char) (d : Nat) (h : digitVal? c = some d) :
    d ≤ 9 ∧ Nat.digitChar d = c := by
  unfold digitVal? at h
  split_ifs at h with h0 h1 h2 h3 h4 h5 h6 h7 h8 h9
  all_goals (injection h with h'; subst h'; subst_vars; exact ⟨by norm_num, rfl⟩)

theorem parseAmPm_reps (pm : Bool) (sfx : List Char) (r : List Char)
    (h : sfx ∈ ampmReps pm) : parseAmPm (sfx ++ r) = some (pm, r) := by
  cases pm <;> simp only [ampmReps, if_true, if_false, Bool.false_eq_true,
    List.mem_cons, List.mem_singleton, List.not_mem_nil, or_false] at h <;>
    rcases h with rfl | rfl | rfl | rfl <;> rfl

theorem ampmReps_headNotDigit (pm : Bool) (sfx : List Char)
    (h : sfx ∈ ampmReps pm) : headNotDigit sfx := by
  cases pm <;> simp only [ampmReps, if_true, if_false, Bool.false_eq_true,
    List.mem_cons, List.mem_singleton, List.not_mem_nil, or_false] at h <;>
    rcases h with rfl | rfl | rfl | rfl <;> rfl

theorem ampmReps_bound (pm : Bool) (sfx : List Char)
    (h : sfx ∈ ampmReps pm) : ∀ c ∈ sfx, c.toNat ≤ 112 := by
  cases pm <;> simp only [ampmReps, if_true, if_false, Bool.false_eq_true,
    List.mem_cons, List.mem_singleton, List.not_mem_nil, or_false] at h <;>
    rcases h with rfl | rfl | rfl | rfl <;> decide

theorem parseAmPm_inv (l : List Char) (pm : Bool) (r : List Char)
    (h : parseAmPm l = some (pm, r)) :
    ∃ sfx ∈ ampmReps pm, l = sfx ++ r := by
  match l with
  | [] => cases h
  | [c] => cases h
  | c1 :: c2 :: rest =>
    simp only [parseAmPm] at h
    split_ifs at h with hA hP
    · obtain ⟨hpm, hr⟩ : false = pm ∧ rest = r := by
        injection h with h'; exact ⟨congrArg Prod.fst h', congrArg Prod.snd h'⟩
      subst hpm; subst hr
      rcases hA with ⟨h1 | h1, h2 | h2⟩ <;> subst h1 <;> subst h2 <;>
        simp [ampmReps]
    · obtain ⟨hpm, hr⟩ : true = pm ∧ rest = r := by
        injection h with h'; exact ⟨congrArg Prod.fst h', congrArg Prod.snd h'⟩
      subst hpm; subst hr
      rcases hP with ⟨h1 | h1, h2 | h2⟩ <;> subst h1 <;> subst h2 <;>
        simp [ampmReps]

theorem decDigitVal?Aux_le (l : List Nat) (v d : Nat)
    (h : decDigitVal?Aux l v = some d) : d ≤ 9 := by
  induction l with
  | nil => cases h
  | cons s t ih =>
    simp only [decDigitVal?Aux] at h
    split_ifs at h with hc
    · injection h with h'
      omega
    · exact ih h

theorem decDigitVal?_le (c : Char) (d : Nat) (h : decDigitVal? c = some d) :
    d ≤ 9 :=
  decDigitVal?Aux_le ndZeroStarts c.toNat d h

theorem decDigitVal?_ascii (c : Char) (h1 : 48 ≤ c.toNat) (h2 : c.toNat ≤ 57) :
    decDigitVal? c = some (c.toNat - 48) := by
  have hstep : decDigitVal? c =
      if 48 ≤ c.toNat ∧ c.toNat < 48 + 10 then some (c.toNat - 48)
      else decDigitVal?Aux ndZeroStartsTail c.toNat := rfl
  rw [hstep, if_pos ⟨h1, by omega⟩]

theorem digitChar_toNat (k : Nat) (hk : k ≤ 9) :
    (Nat.digitChar k).toNat = 48 + k := by
  interval_cases k <;> rfl

theorem decDigitVal?_digitChar (k : Nat) (hk : k ≤ 9) :
    decDigitVal? (Nat.digitChar k) = some k := by
  have h := decDigitVal?_ascii (Nat.digitChar k)
    (by rw [digitChar_toNat k hk]; omega) (by rw [digitChar_toNat k hk]; omega)
  rw [digitChar_toNat k hk] at h
  simpa using h

theorem minReps_minuteChars (m : Nat) (mr : List Char)
    (hm : m ≤ 59) (hmr : mr ∈ minReps m) : minuteChars mr m := by
  unfold minReps at hmr
  split_ifs at hmr with h9
  · simp only [List.mem_cons, List.not_mem_nil, or_false] at hmr
    rcases hmr with rfl | rfl
    · show decDigitVal? (Nat.digitChar m) = some m
      exact decDigitVal?_digitChar m h9
    · refine ⟨by decide, m, decDigitVal?_digitChar m h9, ?_⟩
      rw [show ('0' : Char).toNat = 48 from rfl]
      omega
  · simp only [List.mem_singleton] at hmr
    subst hmr
    refine ⟨?_, m % 10, decDigitVal?_digitChar (m % 10) (by omega), ?_⟩
    · rw [digitChar_toNat (m / 10) (by omega)]
      omega
    · rw [digitChar_toNat (m / 10) (by omega)]
      omega

theorem hourReps_ascii (h : Nat) (hr : List Char) (h12 : h ≤ 12)
    (hhr : hr ∈ hourReps h) : ∀ c ∈ hr, c.toNat ≤ 57 := by
  unfold hourReps at hhr
  split_ifs at hhr with h9
  · simp only [List.mem_cons, List.not_mem_nil, or_false] at hhr
    rcases hhr with rfl | rfl
    · intro c hc
      simp only [List.mem_singleton] at hc
      subst hc
      rw [digitChar_toNat h h9]
      omega
    · intro c hc
      rcases List.mem_cons.mp hc with rfl | hc
      · decide
      · simp only [List.mem_singleton] at hc
        subst hc
        rw [digitChar_toNat h h9]
        omega
  · simp only [List.mem_singleton] at hhr
    subst hhr
    intro c hc
    rcases List.mem_cons.mp hc with rfl | hc
    · decide
    · simp only [List.mem_singleton] at hc
      subst hc
      rw [digitChar_toNat (h % 10) (by omega)]
      omega

theorem minReps_ascii (m : Nat) (mr : List Char) (hm : m ≤ 59)
    (hmr : mr ∈ minReps m) : ∀ c ∈ mr, c.toNat ≤ 57 := by
  unfold minReps at hmr
  split_ifs at hmr with h9
  · simp only [List.mem_cons, List.not_mem_nil, or_false] at hmr
    rcases hmr with rfl | rfl
    · intro c hc
      simp only [List.mem_singleton] at hc
      subst hc
      rw [digitChar_toNat m h9]
      omega
    · intro c hc
      rcases List.mem_cons.mp hc with rfl | hc
      · decide
      · simp only [List.mem_singleton] at hc
        subst hc
        rw [digitChar_toNat m h9]
        omega
  · simp only [List.mem_singleton] at hmr
    subst hmr
    intro c hc
    rcases List.mem_cons.mp hc with rfl | hc
    · rw [digitChar_toNat (m / 10) (by omega)]
      omega
    · simp only [List.mem_singleton] at hc
      subst hc
      rw [digitChar_toNat (m % 10) (by omega)]
      omega

theorem parseMin_minuteChars (m : Nat) (mc rest : List Char)
    (hmc : minuteChars mc m) (hrest : headNotDigit rest) :
    parseMin (mc ++ rest) = some (m, rest) := by
  match mc, hmc with
  | [c], hmc =>
    have hmc' : decDigitVal? c = some m := hmc
    show parseMin (c :: rest) = some (m, rest)
    simp only [parseMin]
    by_cases hA : 48 ≤ c.toNat ∧ c.toNat ≤ 53
    · rw [if_pos hA]
      have hm : c.toNat - 48 = m := by
        have ha := decDigitVal?_ascii c hA.1 (by omega)
        rw [ha] at hmc'
        exact Option.some.inj hmc'
      cases rest with
      | nil => rw [hm]
      | cons c' r' =>
        have hc' : decDigitVal? c' = none := hrest
        simp only [hc', hm]
    · rw [if_neg hA]
      simp only [hmc']
  | [c1, c2], hmc =>
    obtain ⟨hA, b, hb, hm⟩ := hmc
    show parseMin (c1 :: c2 :: rest) = some (m, rest)
    simp only [parseMin]
    rw [if_pos hA]
    simp only [hb]
    rw [hm]

theorem parseMin_inv (l : List Char) (m : Nat) (r : List Char)
    (hp : parseMin l = some (m, r)) :
    m ≤ 59 ∧ ∃ mc, minuteChars mc m ∧ l = mc ++ r := by
  match l with
  | [] => cases hp
  | c :: rest =>
    simp only [parseMin] at hp
    split_ifs at hp with hA
    · split at hp
      · simp only [Option.some.injEq, Prod.mk.injEq] at hp
        obtain ⟨rfl, rfl⟩ := hp
        refine ⟨by omega, [c], ?_, rfl⟩
        show decDigitVal? c = some (c.toNat - 48)
        exact decDigitVal?_ascii c hA.1 (by omega)
      · rename_i c2 rest2
        split at hp
        · rename_i b hb
          simp only [Option.some.injEq, Prod.mk.injEq] at hp
          obtain ⟨rfl, rfl⟩ := hp
          have hb9 := decDigitVal?_le c2 b hb
          exact ⟨by omega, [c, c2], ⟨hA, b, hb, rfl⟩, rfl⟩
        · simp only [Option.some.injEq, Prod.mk.injEq] at hp
          obtain ⟨rfl, rfl⟩ := hp
          refine ⟨by omega, [c], ?_, rfl⟩
          show decDigitVal? c = some (c.toNat - 48)
          exact decDigitVal?_ascii c hA.1 (by omega)
    · split at hp
      · rename_i a ha
        simp only [Option.some.injEq, Prod.mk.injEq] at hp
        obtain ⟨rfl, rfl⟩ := hp
        have ha9 := decDigitVal?_le c a ha
        exact ⟨by omega, [c], ha, rfl⟩
      · cases hp

theorem parseHour_reps (h : Nat) (hr r : List Char)
    (h1 : 1 ≤ h) (h12 : h ≤ 12) (hhr : hr ∈ hourReps h) :
    parseHour (hr ++ ':' :: r) = some (h, ':' :: r) := by
  interval_cases h <;> simp only [hourReps] at hhr <;> norm_num at hhr <;>
    rcases hhr with rfl | rfl <;> rfl

theorem parseHour_inv (l : List Char) (h : Nat) (r : List Char)
    (hp : parseHour l = some (h, r)) :
    1 ≤ h ∧ h ≤ 12 ∧ ∃ hr ∈ hourReps h, l = hr ++ r := by
  match l with
  | [] => cases hp
  | c :: rest =>
    simp only [parseHour] at hp
    split_ifs at hp with hc0 hc1
    · subst hc0
      split at hp
      · cases hp
      · rename_i c2 rest2
        split at hp
        · rename_i d hdv
          obtain ⟨hd9, hdc⟩ := digitVal?_inv c2 d hdv
          split_ifs at hp with hd1
          · simp only [Option.some.injEq, Prod.mk.injEq] at hp
            obtain ⟨rfl, rfl⟩ := hp
            refine ⟨hd1, by omega, ['0', c2], ?_, rfl⟩
            rw [← hdc]
            unfold hourReps
            rw [if_pos hd9]
            simp
        · cases hp
    · subst hc1
      split at hp
      · simp only [Option.some.injEq, Prod.mk.injEq] at hp
        obtain ⟨rfl, rfl⟩ := hp
        exact ⟨le_refl 1, by norm_num, ['1'], by decide, rfl⟩
      · rename_i c2 rest2
        split_ifs at hp with h20 h21 h22 <;>
          simp only [Option.some.injEq, Prod.mk.injEq] at hp
        · subst h20
          obtain ⟨rfl, rfl⟩ := hp
          exact ⟨by norm_num, by norm_num, ['1', '0'], by decide, rfl⟩
        · subst h21
          obtain ⟨rfl, rfl⟩ := hp
          exact ⟨by norm_num, by norm_num, ['1', '1'], by decide, rfl⟩
        · subst h22
          obtain ⟨rfl, rfl⟩ := hp
          exact ⟨by norm_num, by norm_num, ['1', '2'], by decide, rfl⟩
        · obtain ⟨rfl, rfl⟩ := hp
          exact ⟨le_refl 1, by norm_num, ['1'], by decide, rfl⟩
    · split at hp
      · rename_i d hdv
        simp only [Option.some.injEq, Prod.mk.injEq] at hp
        obtain ⟨rfl, rfl⟩ := hp
        obtain ⟨hd9, hdc⟩ := digitVal?_inv c d hdv
        have hd0 : d ≠ 0 := by
          intro h0
          subst h0
          exact hc0 hdc.symm
        refine ⟨by omega, by omega, [c], ?_, rfl⟩
        rw [← hdc]
        unfold hourReps
        rw [if_pos hd9]
        exact List.mem_cons_self _ _
      · cases hp

/-- Inclusion: the spec's ASCII 12-hour format is accepted by the lenient
pattern too. -/
theorem SpecTimeFormat_lenient (s : String) (h m : Nat) (pm : Bool)
    (hf : SpecTimeFormat s h m pm) : SpecTimeFormatL s h m pm := by
  obtain ⟨h1, h12, hm59, hr, mr, sfx, hhr, hmr, hsfx, hdata⟩ := hf
  exact ⟨h1, h12, hm59, hr, mr, sfx, hhr, minReps_minuteChars m mr hm59 hmr,
    hsfx, hdata⟩

/-- Soundness: every string of the lenient pattern parses to its 24-hour
`(hour, minute)` reading. -/
theorem parse12Hour_sound_lenient (s : String) (h m : Nat) (pm : Bool)
    (hf : SpecTimeFormatL s h m pm) : parse12Hour s = some (to24 h pm, m) := by
  obtain ⟨h1, h12, hm59, hr, mc, sfx, hhr, hmc, hsfx, hdata⟩ := hf
  have hhour := parseHour_reps h hr (mc ++ sfx) h1 h12 hhr
  have hmin : parseMin (mc ++ sfx) = some (m, sfx) :=
    parseMin_minuteChars m mc sfx hmc (ampmReps_headNotDigit pm sfx hsfx)
  have hampm : parseAmPm (sfx ++ []) = some (pm, []) := parseAmPm_reps pm sfx [] hsfx
  rw [List.append_nil] at hampm
  simp only [parse12Hour, hdata, hhour, hmin, hampm, if_pos]

/-- Soundness for the ASCII format, via the inclusion. -/
theorem parse12Hour_sound (s : String) (h m : Nat) (pm : Bool)
    (hf : SpecTimeFormat s h m pm) : parse12Hour s = some (to24 h pm, m) :=
  parse12Hour_sound_lenient s h m pm (SpecTimeFormat_lenient s h m pm hf)

/-- Completeness: every string the parser accepts matches the lenient pattern,
and the parsed values are its reading. -/
theorem parse12Hour_complete (s : String) (hh mm : Nat)
    (hp : parse12Hour s = some (hh, mm)) :
    ∃ h m pm, SpecTimeFormatL s h m pm ∧ hh = to24 h pm ∧ mm = m := by
  unfold parse12Hour at hp
  split at hp
  · cases hp
  · rename_i h r1 hH
    split at hp
    · rename_i r2
      split at hp
      · cases hp
      · rename_i m r3 hM
        split at hp
        · cases hp
        · rename_i pm r4 hA
          split_ifs at hp with h4
          subst h4
          simp only [Option.some.injEq, Prod.mk.injEq] at hp
          obtain ⟨rfl, rfl⟩ := hp
          obtain ⟨h1, h12, hr, hhr, hdeq⟩ := parseHour_inv s.data h (':' :: r2) hH
          obtain ⟨hm59, mc, hmc, hmeq⟩ := parseMin_inv r2 m r3 hM
          obtain ⟨sfx, hsfx, haeq⟩ := parseAmPm_inv r3 pm [] hA
          rw [List.append_nil] at haeq
          refine ⟨h, m, pm, ⟨h1, h12, hm59, hr, mc, sfx, hhr, hmc, hsfx, ?_⟩,
            rfl, rfl⟩
          rw [hdeq, hmeq, haeq]
    · cases hp

/-! ### Basic lemmas about the scan loop -/

theorem loop_cons_false (now s e : Int) (r : String) (t : List Entry) (u : Option Int) :
    get_availability_loop now (((s, e), r) :: t) false u =
      if e < now then get_availability_loop now t false u
      else if s ≤ now ∧ now ≤ e then get_availability_loop now t true (some e)
      else (false, some s) := by
  simp [get_availability_loop]

theorem loop_cons_true (now s e : Int) (r : String) (t : List Entry) (u : Option Int) :
    get_availability_loop now (((s, e), r) :: t) true u =
      if e < now then get_availability_loop now t true u
      else if s ≤ now ∧ now ≤ e then get_availability_loop now t true (some e)
      else if some s = u then get_availability_loop now t true (some e)
      else (true, u) := by
  simp [get_availability_loop]

/-- Once `booked` is set the scan never clears it. -/
theorem loop_booked_mono (now : Int) (l : List Entry) (u : Option Int) :
    (get_availability_loop now l true u).1 = true := by
  induction l generalizing u with
  | nil => rfl
  | cons x t ih =>
    obtain ⟨⟨s, e⟩, r⟩ := x
    rw [loop_cons_true]
    split_ifs with h1 h2 h3
    · exact ih u
    · exact ih (some e)
    · exact ih (some e)
    · rfl

/-- Every branch that keeps `booked` set also keeps `until` set. -/
theorem loop_until_isSome (now : Int) (l : List Entry) (b : Bool) (u : Option Int)
    (h : b = true → u.isSome) :
    (get_availability_loop now l b u).1 = true →
      (get_availability_loop now l b u).2.isSome := by
  induction l generalizing b u with
  | nil => simpa [get_availability_loop] using h
  | cons x t ih =>
    obtain ⟨⟨s, e⟩, r⟩ := x
    simp only [get_availability_loop]
    split_ifs with h1 h2 h3 h4
    · exact ih b u h
    · exact ih true (some e) (fun _ => rfl)
    · exact fun _ => rfl
    · exact ih b (some e) (fun _ => rfl)
    · exact fun hb => h hb

/-- Intervals entirely in the past are skipped: a prefix of past intervals does
not change the scan's result, whatever the current state. -/
theorem loop_skip_past (now : Int) (pre l : List Entry) (b : Bool) (u : Option Int)
    (h : ∀ x ∈ pre, x.1.2 < now) :
    get_availability_loop now (pre ++ l) b u = get_availability_loop now l b u := by
  induction pre with
  | nil => rfl
  | cons x t ih =>
    obtain ⟨⟨s, e⟩, r⟩ := x
    have he : e < now := h ((s, e), r) (List.mem_cons_self _ _)
    simp only [List.cons_append, get_availability_loop, if_pos he]
    exact ih (fun y hy => h y (List.mem_cons_of_mem _ hy))

/-- A prefix of valid intervals ending at or before `now`, scanned in the booked
state `(true, some now)`, leaves that state unchanged. -/
theorem loop_boundary_prefix_booked (now : Int) (l m : List Entry)
    (h : ∀ x ∈ l, x.1.1 ≤ x.1.2 ∧ x.1.2 ≤ now) :
    get_availability_loop now (l ++ m) true (some now) =
      get_availability_loop now m true (some now) := by
  induction l with
  | nil => rfl
  | cons x t ih =>
    obtain ⟨⟨s, e⟩, r⟩ := x
    have hv : s ≤ e := (h ((s, e), r) (List.mem_cons_self _ _)).1
    have he : e ≤ now := (h ((s, e), r) (List.mem_cons_self _ _)).2
    have ht : ∀ x ∈ t, x.1.1 ≤ x.1.2 ∧ x.1.2 ≤ now :=
      fun y hy => h y (List.mem_cons_of_mem _ hy)
    rw [List.cons_append, loop_cons_true]
    rcases lt_or_eq_of_le he with hlt | heq
    · rw [if_pos hlt]; exact ih ht
    · subst heq
      rw [if_neg (by omega), if_pos ⟨by omega, le_refl _⟩]
      exact ih ht

/-- A prefix of valid intervals ending at or before `now`, scanned from the
initial free state, either leaves the state free or moves it to
`(true, some now)` (when some prefix interval ends exactly at `now`). -/
theorem loop_boundary_prefix_free (now : Int) (l m : List Entry)
    (h : ∀ x ∈ l, x.1.1 ≤ x.1.2 ∧ x.1.2 ≤ now) :
    get_availability_loop now (l ++ m) false none =
        get_availability_loop now m false none ∨
      get_availability_loop now (l ++ m) false none =
        get_availability_loop now m true (some now) := by
  induction l with
  | nil => left; rfl
  | cons x t ih =>
    obtain ⟨⟨s, e⟩, r⟩ := x
    have hv : s ≤ e := (h ((s, e), r) (List.mem_cons_self _ _)).1
    have he : e ≤ now := (h ((s, e), r) (List.mem_cons_self _ _)).2
    have ht : ∀ x ∈ t, x.1.1 ≤ x.1.2 ∧ x.1.2 ≤ now :=
      fun y hy => h y (List.mem_cons_of_mem _ hy)
    rw [List.cons_append, loop_cons_false]
    rcases lt_or_eq_of_le he with hlt | heq
    · rw [if_pos hlt]; exact ih ht
    · subst heq
      rw [if_neg (by omega), if_pos ⟨by omega, le_refl _⟩]
      right
      exact loop_boundary_prefix_booked _ t m ht

/-- Scanning an unbroken chain in the booked state extends `until` to the
chain's final end and continues with the rest of the schedule. -/
theorem loop_chain (now : Int) (l : List Entry) (u : Int)
    (hn : now ≤ u) (hc : chainFrom u l) :
    ∀ m, get_availability_loop now (l ++ m) true (some u) =
      get_availability_loop now m true (some (chainEnd u l)) := by
  induction l generalizing u with
  | nil => intro m; rfl
  | cons x t ih =>
    obtain ⟨⟨s, e⟩, r⟩ := x
    obtain ⟨hs, hse, hct⟩ := hc
    subst hs
    intro m
    rw [List.cons_append, loop_cons_true]
    have hne : ¬ e < now := by omega
    by_cases hin : s ≤ now ∧ now ≤ e
    · rw [if_neg hne, if_pos hin]
      exact ih e (by omega) hct m
    · rw [if_neg hne, if_neg hin, if_pos rfl]
      exact ih e (by omega) hct m

/-- Chains only move the accumulated end forward. -/
theorem chainEnd_ge (l : List Entry) (u : Int) (hc : chainFrom u l) :
    u ≤ chainEnd u l := by
  induction l generalizing u with
  | nil => exact le_refl u
  | cons x t ih =>
    obtain ⟨⟨s, e⟩, r⟩ := x
    obtain ⟨hs, hse, hct⟩ := hc
    subst hs
    calc s ≤ e := hse
      _ ≤ chainEnd e t := ih e hct

/-- Scanning a sorted, non-overlapping, valid list of intervals that all start
at or after `u ≥ now` in the booked state `(true, some u)` ends booked, with
`until` only moved forward. -/
theorem loop_future_booked (now : Int) (l : List Entry) (u : Int)
    (hn : now ≤ u)
    (hv : ∀ x ∈ l, entryValid x)
    (hp : List.Pairwise (fun a b => a.1.2 ≤ b.1.1) l)
    (hu : ∀ x ∈ l, u ≤ x.1.1) :
    ∃ U, get_availability_loop now l true (some u) = (true, some U) ∧ u ≤ U := by
  induction l generalizing u with
  | nil => exact ⟨u, rfl, le_refl u⟩
  | cons x t ih =>
    obtain ⟨⟨s, e⟩, r⟩ := x
    have hse : s ≤ e := hv ((s, e), r) (List.mem_cons_self _ _)
    have hus : u ≤ s := hu ((s, e), r) (List.mem_cons_self _ _)
    rw [List.pairwise_cons] at hp
    obtain ⟨hhead, htail⟩ := hp
    have hvt : ∀ x ∈ t, entryValid x := fun y hy => hv y (List.mem_cons_of_mem _ hy)
    rw [loop_cons_true]
    have hne : ¬ e < now := by omega
    by_cases hin : s ≤ now ∧ now ≤ e
    · rw [if_neg hne, if_pos hin]
      obtain ⟨U, hU, hle⟩ := ih e (by omega) hvt htail hhead
      exact ⟨U, hU, by omega⟩
    · rw [if_neg hne, if_neg hin]
      by_cases hsu : s = u
      · rw [if_pos (by rw [hsu])]
        obtain ⟨U, hU, hle⟩ := ih e (by omega) hvt htail hhead
        exact ⟨U, hU, by omega⟩
      · rw [if_neg (by simpa using hsu)]
        exact ⟨u, rfl, le_refl u⟩

/-- The scan from the initial free state returns exactly `(false, none)` iff
every interval in the list already ended strictly before `now`. -/
theorem loop_free_none_iff (now : Int) (l : List Entry) :
    get_availability_loop now l false none = (false, none) ↔
      ∀ x ∈ l, x.1.2 < now := by
  induction l with
  | nil => simp [get_availability_loop]
  | cons x t ih =>
    obtain ⟨⟨s, e⟩, r⟩ := x
    rw [loop_cons_false]
    by_cases h1 : e < now
    · rw [if_pos h1]
      constructor
      · intro hl y hy
        rcases List.mem_cons.mp hy with hy | hy
        · subst hy; exact h1
        · exact ih.mp hl y hy
      · intro hall
        exact ih.mpr (fun y hy => hall y (List.mem_cons_of_mem _ hy))
    · rw [if_neg h1]
      constructor
      · intro hl
        exfalso
        by_cases h2 : s ≤ now ∧ now ≤ e
        · rw [if_pos h2] at hl
          have := loop_booked_mono now t (some e)
          rw [hl] at this
          exact Bool.false_ne_true this
        · rw [if_neg h2] at hl
          exact Option.some_ne_none s (congrArg Prod.snd hl)
      · intro hall
        exact absurd (hall ((s, e), r) (List.mem_cons_self _ _)) h1

/-! ## The claims about the Availability Inference Engine -/

/-- Claim C1: The availability inference is a pure, deterministic function of the
day's schedule and the single wall-clock reading `now` taken at entry
(`now = datetime.now(sgt)`, made an explicit argument in the embedding): two
invocations with the same schedule and the same `now` return the same
`(booked, until)` result, and the embedded function's result depends on
nothing besides those two arguments. -/
theorem get_availability_deterministic (data₁ data₂ : List Entry) (now₁ now₂ : Int)
    (hd : data₁ = data₂) (hn : now₁ = now₂) :
    get_availability data₁ now₁ = get_availability data₂ now₂ := by
  rw [hd, hn]

theorem get_availability_deterministic_witness :
    get_availability [((600, 660), "x")] 630 = get_availability [((600, 660), "x")] 630 :=
  get_availability_deterministic [((600, 660), "x")] [((600, 660), "x")] 630 630 rfl rfl

/-- Claim C3: Boundary instants count as inside a booking: in a sorted,
non-overlapping, valid schedule containing an interval `(s, e)` with `s < e`,
if `now` equals `s` or `e` exactly, the engine reports `booked = true` with
`until ≥ e`; in the single-interval case the result is exactly
`(true, some e)`.  (The inside test `start <= now <= end` is inclusive on both
ends.) -/
theorem get_availability_boundary_inclusive (l₁ l₂ : List Entry) (s e : Int)
    (r : String) (now : Int)
    (hwf : WF (l₁ ++ ((s, e), r) :: l₂)) (hse : s < e) (hnow : now = s ∨ now = e) :
    ((get_availability (l₁ ++ ((s, e), r) :: l₂) now).1 = true ∧
      ∃ u, (get_availability (l₁ ++ ((s, e), r) :: l₂) now).2 = some u ∧ e ≤ u) ∧
    get_availability [((s, e), r)] now = (true, some e) := by
  obtain ⟨hv, hp⟩ := hwf
  have hsnow : s ≤ now := by rcases hnow with h | h <;> omega
  have hnowe : now ≤ e := by rcases hnow with h | h <;> omega
  rw [List.pairwise_append] at hp
  obtain ⟨hp₁, hp₂, hcross⟩ := hp
  rw [List.pairwise_cons] at hp₂
  obtain ⟨hhead, htail⟩ := hp₂
  constructor
  · -- the general schedule
    have hpre : ∀ x ∈ l₁, x.1.1 ≤ x.1.2 ∧ x.1.2 ≤ now := by
      intro y hy
      refine ⟨hv y (List.mem_append_left _ hy), ?_⟩
      have : y.1.2 ≤ s := hcross y hy ((s, e), r) (List.mem_cons_self _ _)
      omega
    have hmid : ∀ b u, get_availability_loop now (((s, e), r) :: l₂) b u =
        get_availability_loop now l₂ true (some e) ∨ b = false ∧ u = none ∧
        get_availability_loop now (((s, e), r) :: l₂) b u =
          get_availability_loop now l₂ true (some e) := by
      intro b u
      left
      cases b
      · rw [loop_cons_false, if_neg (by omega), if_pos ⟨hsnow, hnowe⟩]
      · rw [loop_cons_true, if_neg (by omega), if_pos ⟨hsnow, hnowe⟩]
    have htailvalid : ∀ x ∈ l₂, entryValid x :=
      fun y hy => hv y (List.mem_append_right _ (List.mem_cons_of_mem _ hy))
    obtain ⟨U, hU, hle⟩ := loop_future_booked now l₂ e hnowe htailvalid htail hhead
    have habsorb := loop_boundary_prefix_free now l₁ (((s, e), r) :: l₂) hpre
    have hfin : get_availability (l₁ ++ ((s, e), r) :: l₂) now = (true, some U) := by
      unfold get_availability
      rcases habsorb with hcase | hcase
      · rw [hcase]
        rcases hmid false none with h | ⟨_, _, h⟩ <;> rw [h, hU]
      · rw [hcase]
        rcases hmid true (some now) with h | ⟨hb, _, _⟩
        · rw [h, hU]
        · exact absurd hb (by simp)
    rw [hfin]
    exact ⟨rfl, U, rfl, hle⟩
  · -- the single-interval case
    unfold get_availability
    rw [loop_cons_false, if_neg (by omega), if_pos ⟨hsnow, hnowe⟩]
    rfl

theorem get_availability_boundary_inclusive_witness :
    (get_availability [((600, 660), "x")] 660).1 = true ∧
    get_availability [((600, 660), "x")] 660 = (true, some 660) := by
  have h := get_availability_boundary_inclusive [] [] 600 660 "x" 660
    (by refine ⟨fun x hx => ?_, ?_⟩
        · fin_cases hx; norm_num [entryValid]
        · norm_num [List.pairwise_cons])
    (by norm_num) (Or.inr rfl)
  exact ⟨h.1.1, h.2⟩

/-- Claim C4: Contiguous bookings merge into one busy period: in a sorted,
non-overlapping, valid schedule where `now` lies inside the interval `(s, e)`
and the entire rest of the schedule is an unbroken chain (each start equals
the previous end), the engine returns `booked = true` with `until` equal to
the end of the last interval of the chain, regardless of the (possibly
distinct) reason strings; in particular
`[(09:00,10:00,"A"), (10:00,11:00,"B")]` at `now = 09:30` yields
`(true, 11:00)`. -/
theorem get_availability_contiguous_merge (l₁ : List Entry) (s e : Int) (r : String)
    (chain : List Entry) (now : Int)
    (hwf : WF (l₁ ++ ((s, e), r) :: chain))
    (hin : s ≤ now ∧ now ≤ e)
    (hch : chainFrom e chain) :
    get_availability (l₁ ++ ((s, e), r) :: chain) now =
      (true, some (chainEnd e chain)) ∧
    get_availability [((540, 600), "A"), ((600, 660), "B")] 570 = (true, some 660) := by
  obtain ⟨hv, hp⟩ := hwf
  rw [List.pairwise_append] at hp
  obtain ⟨-, -, hcross⟩ := hp
  refine ⟨?_, by decide⟩
  have hpre : ∀ x ∈ l₁, x.1.1 ≤ x.1.2 ∧ x.1.2 ≤ now := by
    intro y hy
    refine ⟨hv y (List.mem_append_left _ hy), ?_⟩
    have : y.1.2 ≤ s := hcross y hy ((s, e), r) (List.mem_cons_self _ _)
    omega
  have hmid : ∀ b u, get_availability_loop now (((s, e), r) :: chain) b u =
      get_availability_loop now chain true (some e) := by
    intro b u
    cases b
    · rw [loop_cons_false, if_neg (by omega), if_pos hin]
    · rw [loop_cons_true, if_neg (by omega), if_pos hin]
  have hchain := loop_chain now chain e hin.2 hch []
  rw [List.append_nil] at hchain
  unfold get_availability
  rcases loop_boundary_prefix_free now l₁ (((s, e), r) :: chain) hpre with hcase | hcase <;>
    rw [hcase, hmid, hchain] <;> rfl

theorem get_availability_contiguous_merge_witness :
    get_availability [((540, 600), "A"), ((600, 660), "B")] 570 = (true, some 660) :=
  (get_availability_contiguous_merge [] 540 600 "A" [((600, 660), "B")] 570
    (by refine ⟨fun x hx => ?_, ?_⟩
        · fin_cases hx <;> norm_num [entryValid]
        · norm_num [List.pairwise_cons])
    ⟨by norm_num, by norm_num⟩
    ⟨rfl, by norm_num, trivial⟩).2

/-- Claim C5: A gap terminates the busy run: in a sorted, non-overlapping, valid
schedule where `now` lies inside `(s, e)`, the following intervals form an
unbroken chain, and the next interval `g` after the chain starts strictly
after the accumulated `until`, the engine returns `booked = true` with `until`
equal to the end of the busy run before the gap — and nothing after the gap
affects the result (the trailing `tail` is arbitrary); in particular
`[(09:00,10:00), (10:30,11:00)]` at `now = 09:30` yields `(true, 10:00)`. -/
theorem get_availability_gap_stops (l₁ : List Entry) (s e : Int) (r : String)
    (chain : List Entry) (g : Entry) (tail : List Entry) (now : Int)
    (hwf : WF (l₁ ++ ((s, e), r) :: (chain ++ g :: tail)))
    (hin : s ≤ now ∧ now ≤ e)
    (hch : chainFrom e chain)
    (hgap : chainEnd e chain < g.1.1) :
    get_availability (l₁ ++ ((s, e), r) :: (chain ++ g :: tail)) now =
      (true, some (chainEnd e chain)) ∧
    get_availability [((540, 600), "m"), ((630, 660), "m")] 570 = (true, some 600) := by
  obtain ⟨⟨gs, ge⟩, gr⟩ := g
  obtain ⟨hv, hp⟩ := hwf
  rw [List.pairwise_append] at hp
  obtain ⟨-, -, hcross⟩ := hp
  refine ⟨?_, by decide⟩
  have hpre : ∀ x ∈ l₁, x.1.1 ≤ x.1.2 ∧ x.1.2 ≤ now := by
    intro y hy
    refine ⟨hv y (List.mem_append_left _ hy), ?_⟩
    have : y.1.2 ≤ s := hcross y hy ((s, e), r) (List.mem_cons_self _ _)
    omega
  have hmid : ∀ b u,
      get_availability_loop now (((s, e), r) :: (chain ++ ((gs, ge), gr) :: tail)) b u =
      get_availability_loop now (chain ++ ((gs, ge), gr) :: tail) true (some e) := by
    intro b u
    cases b
    · rw [loop_cons_false, if_neg (by omega), if_pos hin]
    · rw [loop_cons_true, if_neg (by omega), if_pos hin]
  have hgv : gs ≤ ge := hv ((gs, ge), gr)
    (List.mem_append_right _ (List.mem_cons_of_mem _ (List.mem_append_right _
      (List.mem_cons_self _ _))))
  have hU : now ≤ chainEnd e chain := le_trans hin.2 (chainEnd_ge chain e hch)
  have hgs : chainEnd e chain < gs := hgap
  have hstep : get_availability_loop now (((gs, ge), gr) :: tail) true
      (some (chainEnd e chain)) = (true, some (chainEnd e chain)) := by
    rw [loop_cons_true, if_neg (by omega), if_neg (by omega),
      if_neg (by simp only [Option.some.injEq]; omega)]
  unfold get_availability
  rcases loop_boundary_prefix_free now l₁
      (((s, e), r) :: (chain ++ ((gs, ge), gr) :: tail)) hpre with hcase | hcase <;>
    rw [hcase, hmid, loop_chain now chain e hin.2 hch, hstep]

theorem get_availability_gap_stops_witness :
    get_availability [((540, 600), "m"), ((630, 660), "m")] 570 = (true, some 600) :=
  (get_availability_gap_stops [] 540 600 "m" [] ((630, 660), "m") [] 570
    (by refine ⟨fun x hx => ?_, ?_⟩
        · fin_cases hx <;> norm_num [entryValid]
        · norm_num [List.pairwise_cons])
    ⟨by norm_num, by norm_num⟩
    trivial
    (by decide)).2

/-- Claim C6: Intervals entirely in the past are irrelevant: removing from the
front of the schedule any intervals whose end is strictly before `now` leaves
the inference result unchanged; e.g. `[(07:00,08:00), (14:00,15:00)]` at
`now = 13:00` yields `(false, 14:00)`, the same as `[(14:00,15:00)]` alone. -/
theorem get_availability_past_irrelevant (pre l : List Entry) (now : Int)
    (h : ∀ x ∈ pre, x.1.2 < now) :
    get_availability (pre ++ l) now = get_availability l now ∧
    (get_availability [((420, 480), "a"), ((840, 900), "b")] 780 = (false, some 840) ∧
     get_availability [((840, 900), "b")] 780 = (false, some 840)) :=
  ⟨loop_skip_past now pre l false none h, by decide, by decide⟩

theorem get_availability_past_irrelevant_witness :
    get_availability ([((420, 480), "a")] ++ [((840, 900), "b")]) 780 =
      get_availability [((840, 900), "b")] 780 :=
  (get_availability_past_irrelevant [((420, 480), "a")] [((840, 900), "b")] 780
    (by intro x hx
        simp only [List.mem_singleton] at hx
        subst hx
        exact (by norm_num : (480 : Int) < 780))).1

/-- Claim C7: The status `(booked = true, until = none)` is unreachable: for
every schedule and every `now`, if the engine reports `booked = true` then
`until` is set (every branch that sets `booked` also sets `until`). -/
theorem get_availability_booked_has_until (data : List Entry) (now : Int)
    (h : (get_availability data now).1 = true) :
    (get_availability data now).2 ≠ none := by
  have hs := loop_until_isSome now data false none
    (fun hb => absurd hb Bool.false_ne_true) h
  exact Option.isSome_iff_ne_none.mp hs

theorem get_availability_booked_has_until_witness :
    (get_availability [((600, 660), "x")] 630).2 ≠ none :=
  get_availability_booked_has_until [((600, 660), "x")] 630 (by decide)

/-- Claim C10: Exact characterization of the all-free result: for every schedule
(sorted or not) and every `now`, the engine returns `(false, none)` iff every
interval of the schedule ends strictly before `now`; in particular the empty
schedule always yields `(false, none)` (so any interval ending at or after
`now` forces `until` to be set). -/
theorem get_availability_all_free_iff (data : List Entry) (now : Int) :
    (get_availability data now = (false, none) ↔ ∀ x ∈ data, x.1.2 < now) ∧
    get_availability [] now = (false, none) :=
  ⟨loop_free_none_iff now data, rfl⟩

/-! ## The claims about the Time Normalizer and the Booking Table Parser -/

/-- Claim C9 counterexample: the error condition is not as claimed — the
string `"9:٣PM"` (an Arabic-Indic digit in the minute position) is *not* in
the 12-hour AM/PM format, yet `process_time` succeeds on it with minute 3,
because `strptime`'s `%M` matches any Unicode decimal digit in its `\d`
slots. -/
theorem process_time_unicode_minute_cex :
    process_time ⟨2024, 1, 1⟩ "9:٣PM" = some ⟨2024, 1, 1, 21, 3, sgt⟩ ∧
    ∀ h m pm, ¬ SpecTimeFormat "9:٣PM" h m pm := by
  refine ⟨rfl, ?_⟩
  rintro h m pm ⟨h1, h12, hm59, hr, mr, sfx, hhr, hmr, hsfx, hdata⟩
  have hmem : ('٣' : Char) ∈ "9:٣PM".data := by decide
  have hv : ('٣' : Char).toNat = 1635 := by decide
  rw [hdata] at hmem
  rcases List.mem_append.mp hmem with hm1 | hm1
  · have hle := hourReps_ascii h hr h12 hhr _ hm1
    rw [hv] at hle
    omega
  · rcases List.mem_cons.mp hm1 with hc | hm2
    · exact absurd hc (by decide)
    · rcases List.mem_append.mp hm2 with hm3 | hm3
      · have hle := minReps_ascii m mr hm59 hmr _ hm3
        rw [hv] at hle
        omega
      · have hle := ampmReps_bound pm sfx hsfx _ hm3
        rw [hv] at hle
        omega

/-- Claim C9 amended: for every calendar date and every time-of-day string in
12-hour AM/PM format (no leading zero required), the Time Normalizer returns
an instant in the fixed facility timezone whose year/month/day come from the
date argument and whose hour/minute come from the parsed string (it is a pure
function of its two arguments; `strptime`/`replace`/`localize` have no side
effects).  The error condition is weaker than claimed: the `\d` slots of `%M`
also accept non-ASCII Unicode decimal digits in the minute, such strings
normalize too (with the digits' numeric values), and exactly the strings
outside that lenient pattern fail with an error. -/
theorem process_time_contract (date : Date) (s : String) :
    (∀ h m pm, SpecTimeFormat s h m pm →
      process_time date s =
        some ⟨date.year, date.month, date.day, to24 h pm, m, sgt⟩) ∧
    (∀ h m pm, SpecTimeFormatL s h m pm →
      process_time date s =
        some ⟨date.year, date.month, date.day, to24 h pm, m, sgt⟩) ∧
    ((∀ h m pm, ¬ SpecTimeFormatL s h m pm) → process_time date s = none) := by
  refine ⟨?_, ?_, ?_⟩
  · intro h m pm hf
    unfold process_time
    rw [parse12Hour_sound s h m pm hf]
  · intro h m pm hf
    unfold process_time
    rw [parse12Hour_sound_lenient s h m pm hf]
  · intro hnone
    unfold process_time
    cases hp : parse12Hour s with
    | none => rfl
    | some x =>
      obtain ⟨hh, mm⟩ := x
      obtain ⟨h, m, pm, hf, _, _⟩ := parse12Hour_complete s hh mm hp
      exact absurd hf (hnone h m pm)

theorem process_time_contract_witness :
    process_time ⟨2024, 1, 1⟩ "9:00AM" = some ⟨2024, 1, 1, 9, 0, sgt⟩ ∧
    process_time ⟨2024, 1, 1⟩ "9:٣PM" = some ⟨2024, 1, 1, 21, 3, sgt⟩ ∧
    process_time ⟨2024, 1, 1⟩ "9:00AM11:00AM" = none :=
  ⟨(process_time_contract ⟨2024, 1, 1⟩ "9:00AM").1 9 0 false
      ⟨by norm_num, by norm_num, by norm_num,
       ['9'], ['0', '0'], ['A', 'M'], by decide, by decide, by decide, by decide⟩,
   (process_time_contract ⟨2024, 1, 1⟩ "9:٣PM").2.1 9 3 true
      ⟨by norm_num, by norm_num, by norm_num,
       ['9'], ['٣'], ['P', 'M'], by decide,
       (by decide : decDigitVal? '٣' = some 3), by decide, by decide⟩,
   (process_time_contract ⟨2024, 1, 1⟩ "9:00AM11:00AM").2.2
     (fun h m pm hf => by
        have hs := parse12Hour_sound_lenient "9:00AM11:00AM" h m pm hf
        rw [show parse12Hour "9:00AM11:00AM" = none from by decide] at hs
        cases hs)⟩

/-- Processing one row can only end in an error or in the result of the rest of
the rows being consed onto: in particular an error on the remaining rows is
never swallowed. -/
theorem scrape_room_cons_error (date : Date) (row : List String)
    (rest : List (List String)) (err : ScrapeError)
    (h : scrape_room date rest = .error err) :
    ∃ e, scrape_room date (row :: rest) = .error e := by
  match row with
  | [] => exact ⟨.indexError, rfl⟩
  | first :: others =>
    by_cases hs : first = "No bookings made."
    · refine ⟨err, ?_⟩
      unfold scrape_room
      rw [if_pos hs]
      exact h
    · unfold scrape_room
      rw [if_neg hs]
      match others with
      | [] => exact ⟨.unpackError, rfl⟩
      | r1 :: r2 :: o => exact ⟨.unpackError, rfl⟩
      | [reason] =>
        match hsp : pySplit first " - " with
        | [] => exact ⟨.malformedRange, rfl⟩
        | [s1] => exact ⟨.malformedRange, rfl⟩
        | s1 :: s2 :: s3 :: t => exact ⟨.malformedRange, rfl⟩
        | [s1, s2] =>
          show ∃ e,
            (match process_time date s1, process_time date s2 with
              | some t1, some t2 =>
                match scrape_room date rest with
                | Except.ok l => Except.ok (((t1, t2), reason) :: l)
                | Except.error e2 => Except.error e2
              | none, _ => Except.error ScrapeError.malformedTime
              | some _, none => Except.error ScrapeError.malformedTime) =
            Except.error e
          cases hp1 : process_time date s1 with
          | none => exact ⟨.malformedTime, rfl⟩
          | some t1 =>
            cases hp2 : process_time date s2 with
            | none => exact ⟨.malformedTime, rfl⟩
            | some t2 => exact ⟨err, by rw [h]⟩

/-- A malformed non-sentinel row makes the row loop fail on its own. -/
theorem scrape_room_bad_row_error (date : Date) (slot reason : String)
    (rest : List (List String))
    (hsent : slot ≠ "No bookings made.")
    (hbad : (pySplit slot " - ").length ≠ 2 ∨
      ∃ s1 s2, pySplit slot " - " = [s1, s2] ∧
        (process_time date s1 = none ∨ process_time date s2 = none)) :
    ∃ e, scrape_room date ([slot, reason] :: rest) = .error e := by
  unfold scrape_room
  rw [if_neg hsent]
  match hsp : pySplit slot " - " with
  | [] => exact ⟨.malformedRange, rfl⟩
  | [s1] => exact ⟨.malformedRange, rfl⟩
  | s1 :: s2 :: s3 :: t => exact ⟨.malformedRange, rfl⟩
  | [s1, s2] =>
    show ∃ e,
      (match process_time date s1, process_time date s2 with
        | some t1, some t2 =>
          match scrape_room date rest with
          | Except.ok l => Except.ok (((t1, t2), reason) :: l)
          | Except.error e2 => Except.error e2
        | none, _ => Except.error ScrapeError.malformedTime
        | some _, none => Except.error ScrapeError.malformedTime) =
      Except.error e
    rcases hbad with hlen | ⟨s1', s2', heq, hfail⟩
    · rw [hsp] at hlen
      exact absurd rfl hlen
    · rw [hsp] at heq
      injection heq with h1 h2
      injection h2 with h2 _
      subst h1
      subst h2
      rcases hfail with hf | hf
      · rw [hf]
        exact ⟨.malformedTime, rfl⟩
      · rw [hf]
        cases hp1 : process_time date s1 with
        | none => exact ⟨.malformedTime, rfl⟩
        | some t1 => exact ⟨.malformedTime, rfl⟩

/-- Claim C8: Malformed input fails loudly, not silently: if the row list
contains a non-sentinel row whose range string does not split on the `" - "`
delimiter into exactly two parts, or whose halves fail time normalization,
the parse of that room's day fails with an error — never a partial or silently
empty schedule. -/
theorem scrape_room_fails_loudly (date : Date) (rows : List (List String))
    (slot reason : String)
    (hmem : [slot, reason] ∈ rows)
    (hsent : slot ≠ "No bookings made.")
    (hbad : (pySplit slot " - ").length ≠ 2 ∨
      ∃ s1 s2, pySplit slot " - " = [s1, s2] ∧
        (process_time date s1 = none ∨ process_time date s2 = none)) :
    ∃ e, scrape_room date rows = .error e := by
  induction rows with
  | nil => cases hmem
  | cons row rest ih =>
    rcases List.mem_cons.mp hmem with heq | hmem'
    · rw [← heq]
      exact scrape_room_bad_row_error date slot reason rest hsent hbad
    · obtain ⟨err, herr⟩ := ih hmem'
      exact scrape_room_cons_error date row rest err herr

theorem scrape_room_fails_loudly_witness :
    ∃ e, scrape_room ⟨2024, 1, 1⟩ [["9:00AM11:00AM", "r"]] = .error e :=
  scrape_room_fails_loudly ⟨2024, 1, 1⟩ [["9:00AM11:00AM", "r"]] "9:00AM11:00AM" "r"
    (List.mem_cons_self _ _) (by decide) (Or.inl (by decide))

/-- Claim C2 counterexample: The Booking Table Parser does **not** reject a row
whose normalized instants are inverted: the row `"11:00AM - 9:00AM"` parses
successfully into a `BookingInterval` whose start is *not* before its end
(refuting both "the parse fails with an error" and "every returned interval
satisfies start < end"). -/
theorem scrape_room_accepts_inverted_cex :
    scrape_room ⟨2024, 1, 1⟩ [["11:00AM - 9:00AM", "club"]] =
      .ok [((⟨2024, 1, 1, 11, 0, sgt⟩, ⟨2024, 1, 1, 9, 0, sgt⟩), "club")] ∧
    ¬ Instant.lt ⟨2024, 1, 1, 11, 0, sgt⟩ ⟨2024, 1, 1, 9, 0, sgt⟩ :=
  ⟨rfl, by decide⟩

/-- Claim C2 amended: The parser performs no ordering validation on the two
normalized instants: a non-sentinel row whose halves both normalize yields a
`BookingInterval` with the instants in row order even when that interval is
inverted (`end` chronologically before `start`), for every target date. -/
theorem scrape_room_no_order_validation (date : Date) (reason : String) :
    ∃ i1 i2,
      scrape_room date [["11:00AM - 9:00AM", reason]] = .ok [((i1, i2), reason)] ∧
      Instant.lt i2 i1 := by
  refine ⟨⟨date.year, date.month, date.day, 11, 0, sgt⟩,
    ⟨date.year, date.month, date.day, 9, 0, sgt⟩, rfl, ?_⟩
  unfold Instant.lt Instant.key
  simp only
  omega

end DrBot
